import Mathlib

/-!
Verification development for the swift-psl rule compiler and
registrable-domain resolver (`regenerate.py`).

The Python script parses the public suffix list into positive and negative
rule sets (`get_public_suffixes`), compiles each into a trie keyed TLD-first
(`rules_to_tree`), prunes root-level children whose whole subtree is a single
terminal marker (`filter_top_rules`), and emits a Swift source file whose
`get_domain` function resolves a hostname against the two tries.

The emitted Swift trie is the direct image of the Python dict tree:
a Python subtree dict becomes `Rule.subrule` over the same entries and the
Python terminal value `True` (stored under the key `"!"`) becomes
`Rule.accept_this`.  We therefore embed both with one inductive type.
Dicts are modelled as association lists in insertion order, matching
`collections.OrderedDict` (`dictLookup` is keyed lookup, `dictSet` is
`d[k] = v`: update in place if the key exists, else append).
-/

namespace SwiftPSL

/-- The Swift `Rule` enum: `case accept_this` and `case subrule([String: Rule])`.
Also models the Python tree, where `accept_this` is the value `True`. -/
inductive Rule where
  | accept_this : Rule
  | subrule : List (String × Rule) → Rule

/-- Keyed lookup in an association list (Python / Swift dictionary lookup). -/
def dictLookup : List (String × Rule) → String → Option Rule
  | [], _ => none
  | (k, v) :: rest, key => if k = key then some v else dictLookup rest key

/-- `d[k] = v` on an ordered dictionary: replace in place if `k` is present,
otherwise append at the end (insertion order). -/
def dictSet : List (String × Rule) → String → Rule → List (String × Rule)
  | [], key, v => [(key, v)]
  | (k, w) :: rest, key, v =>
    if k = key then (key, v) :: rest else (k, w) :: dictSet rest key v

/-- One iteration of the `rules_to_tree` loop body for a single rule, already
reversed: descend with `setdefault(label, OrderedDict())`, then set
`rule_tree['!'] = True`.  Returns `none` where the Python would raise
(descending into, or assigning into, the non-dict value `True`). -/
def insertRule : List String → Rule → Option Rule
  | _, Rule.accept_this => none
  | [], Rule.subrule cs => some (Rule.subrule (dictSet cs "!" Rule.accept_this))
  | label :: rest, Rule.subrule cs =>
    match insertRule rest ((dictLookup cs label).getD (Rule.subrule [])) with
    | none => none
    | some child => some (Rule.subrule (dictSet cs label child))

/-- `rules_to_tree(rules)`: fold every rule into an initially empty tree,
consuming each rule's labels in reverse (TLD first). -/
def rules_to_tree (rules : List (List String)) : Option Rule :=
  rules.foldlM (fun t r => insertRule r.reverse t) (Rule.subrule [])

/-- Does this subtree equal the Python dict `{'!': True}` (a single terminal
marker and nothing else)? -/
def isAcceptThisDict : Rule → Bool
  | Rule.subrule [(k, Rule.accept_this)] => k = "!"
  | _ => false

/-- `filter_top_rules(d)`: drop every root-level child whose value equals
`{'!': True}`. -/
def filter_top_rules : Rule → Rule
  | Rule.accept_this => Rule.accept_this
  | Rule.subrule cs => Rule.subrule (cs.filter (fun kv => !isAcceptThisDict kv.2))

/-- The trie construction performed by `main`: both the positive and the
negative rule sets go through `rules_to_tree` and then `filter_top_rules`
(lines 202 and 205 of `regenerate.py`). -/
def build_psl_tries (pos neg : List (List String)) : Option (Rule × Rule) :=
  match rules_to_tree pos, rules_to_tree neg with
  | some p, some n => some (filter_top_rules p, filter_top_rules n)
  | _, _ => none

/-- The Swift computed property `var subrule: [String: Rule]`.  On
`.accept_this` the Swift source is `assert(false)` (a logic error with no
value to return); the model returns the empty dictionary there, and the
claim about unreachability of that branch is proved separately. -/
def Rule.subruleGet : Rule → List (String × Rule)
  | Rule.subrule cs => cs
  | Rule.accept_this => []

/-- `rule.subrule[accept_this] != nil`: the node has a child under the
terminal key `"!"`. -/
def hasAcceptThis (r : Rule) : Bool :=
  (dictLookup r.subruleGet "!").isSome

/-- `accepted_rules` contains a rule with a terminal child. -/
def anyAccept (rs : List Rule) : Bool :=
  rs.any hasAcceptThis

/-- One advance of the matched-so-far set: for each rule, in order, append its
wildcard child (`rule.subrule[wildcard]`) and then its exact-label child
(`rule.subrule[label]`). -/
def newAccepted (rs : List Rule) (label : String) : List Rule :=
  rs.flatMap (fun r =>
    (dictLookup r.subruleGet "*").toList ++ (dictLookup r.subruleGet label).toList)

/-- Phase 1 of `get_domain` (the negative-trie scan).  State: the current
`accepted_rules`, `longest`, `this_longest`; the remaining labels are
TLD-first.  `none` models the `return nil` taken on an empty label; otherwise
the final value of `longest` is produced.  Note the terminal check happens
before the current label is appended to `this_longest`, and the loop never
breaks early on a match. -/
def phase1 : List Rule → List String → List String → List String → Option (List String)
  | _, longest, _, [] => some longest
  | accepted, longest, this_longest, label :: rest =>
    if label = "" then none
    else
      phase1 (newAccepted accepted label)
        (if anyAccept accepted then this_longest else longest)
        (this_longest ++ [label]) rest

/-- Phase 2 of `get_domain` (the positive-trie scan).  The label is appended
to `this_longest` before the terminal check.  Returns the final `longest`
together with the final `accepted_rules`. -/
def phase2 : List Rule → List String → List String → List String → List String × List Rule
  | accepted, longest, _, [] => (longest, accepted)
  | accepted, longest, this_longest, label :: rest =>
    phase2 (newAccepted accepted label)
      (if anyAccept accepted then this_longest ++ [label] else longest)
      (this_longest ++ [label]) rest

/-- Swift `joined(separator: ".")`. -/
def joinDot : List String → String
  | [] => ""
  | [s] => s
  | s :: rest => s ++ "." ++ joinDot rest

/-- The positive-rule part of `get_domain`: run phase 2 from the positive
root, then, in the Swift source's order: return `nil` if a rule in the final
`accepted_rules` has a terminal child, else the recorded `longest` (reversed
and dot-joined) if non-empty, else the default fallback
`labels[1] + "." + labels[0]` (or `nil` with fewer than two labels). -/
def positivePart (labels : List String) (p_suffixes : Rule) : Option String :=
  match phase2 [p_suffixes] [] [] labels with
  | (longest, accepted) =>
    if anyAccept accepted then none
    else if longest ≠ [] then some (joinDot longest.reverse)
    else if labels.length < 2 then none
    else some (labels.getD 1 "" ++ "." ++ labels.getD 0 "")

/-- The generated Swift `get_domain`, taking the hostname as its label list
(the result of `components(separatedBy: ".")`, left to right) and the two
tries.  `labels` is that list reversed (TLD first).  Phase 1 runs on the
negative trie; a non-empty exception match is returned at once, otherwise the
positive phase and fallback run. -/
def get_domain (host : List String) (n_suffixes p_suffixes : Rule) : Option String :=
  let labels := host.reverse
  match phase1 [n_suffixes] [] [] labels with
  | none => none
  | some longest =>
    if longest ≠ [] then some (joinDot longest.reverse)
    else positivePart labels p_suffixes

/-- The trie a single rule compiles to, along its reversed label path:
`chainTree ls` is the tree with one branchless path `ls` ending in the
terminal entry. -/
def chainTree : List String → Rule
  | [] => Rule.subrule [("!", Rule.accept_this)]
  | x :: xs => Rule.subrule [(x, chainTree xs)]

/-! ### The rule source parser (`get_public_suffixes`)

The Python reads the list file line by line; we take the list of lines as
input.  Per line: `line.split(maxsplit=1)` keeps only the first
whitespace-delimited token; blank lines and `//` comments are skipped; a
leading `!` classifies the rule as negative and is stripped; the token is
then processed by `.strip('.').lower().split('.')`. -/

/-- The first whitespace-delimited token of a line (empty if none),
as a character list. -/
def lineToken (cs : List Char) : List Char :=
  (cs.dropWhile Char.isWhitespace).takeWhile (fun c => !Char.isWhitespace c)

/-- Python `str.strip('.')`: remove every leading and trailing dot. -/
def stripDots (cs : List Char) : List Char :=
  ((cs.dropWhile (fun c => c = '.')).reverse.dropWhile (fun c => c = '.')).reverse

/-- Python `str.split('.')`: split on every dot, keeping empty pieces
(`''.split('.') == ['']`, so the result is never empty). -/
def splitOnDots : List Char → List (List Char)
  | [] => [[]]
  | c :: cs =>
    if c = '.' then [] :: splitOnDots cs
    else
      match splitOnDots cs with
      | t :: ts => (c :: t) :: ts
      | [] => [[c]]

/-- `token.strip('.').lower().split('.')` as a list of labels. -/
def normalizeToken (cs : List Char) : List String :=
  (splitOnDots ((stripDots cs).map Char.toLower)).map (fun l => String.mk l)

/-- Does the token start with the comment marker `//`? -/
def startsWithComment : List Char → Bool
  | '/' :: '/' :: _ => true
  | _ => false

/-- Processing of one line: skip blank and comment lines; on a leading `!`,
strip it and append the normalized remainder to the negative list; otherwise
append the normalized token to the positive list. -/
def parseLine (acc : List (List String) × List (List String)) (line : String) :
    List (List String) × List (List String) :=
  let t := lineToken line.toList
  if t = [] then acc
  else if startsWithComment t then acc
  else if t.head? = some '!' then (acc.1, acc.2 ++ [normalizeToken t.tail])
  else (acc.1 ++ [normalizeToken t], acc.2)

/-- `get_public_suffixes`: fold the lines, producing the positive and the
negative rule lists in source order. -/
def get_public_suffixes (lines : List String) :
    List (List String) × List (List String) :=
  lines.foldl parseLine ([], [])

/-! ### Derived characterizations and invariants -/

/-- Derived characterization of phase 1's matching: the index (number of
labels already consumed) of the *last* scan position at which some rule in
the matched-so-far set has a terminal child, if any.  Used to state what
`phase1` records. -/
def exceptionIdx : List String → List Rule → Option Nat
  | [], _ => none
  | l :: rest, acc =>
    match exceptionIdx rest (newAccepted acc l) with
    | some k => some (k + 1)
    | none => if anyAccept acc then some 0 else none

/-- Structural invariant of trees produced by `rules_to_tree`: the terminal
value `accept_this` only ever sits under the key `"!"`. -/
inductive OnlyBang : Rule → Prop where
  | accept : OnlyBang Rule.accept_this
  | node : ∀ cs : List (String × Rule),
      (∀ k v, (k, v) ∈ cs → v = Rule.accept_this → k = "!") →
      (∀ k v, (k, v) ∈ cs → OnlyBang v) →
      OnlyBang (Rule.subrule cs)

/-! ### Concrete theorems about the pipeline -/

/-- C1: contrary to the claim, `main` pipes the negative rule set through
`filter_top_rules` as well (line 205).  For the exception rule set
`{!foo}` the built negative trie is empty — the single-label exception is
*not* present — and resolution of `x.foo` differs between the trie the code
builds (fallback `x.foo`) and the unpruned negative trie (exception `foo`). -/
theorem c1_negative_trie_pruned :
    rules_to_tree [["foo"]]
      = some (Rule.subrule [("foo", Rule.subrule [("!", Rule.accept_this)])]) ∧
    build_psl_tries [] [["foo"]] = some (Rule.subrule [], Rule.subrule []) ∧
    get_domain ["x", "foo"] (Rule.subrule []) (Rule.subrule []) = some "x.foo" ∧
    get_domain ["x", "foo"]
      (Rule.subrule [("foo", Rule.subrule [("!", Rule.accept_this)])])
      (Rule.subrule []) = some "foo" := by
  refine ⟨rfl, rfl, ?_, ?_⟩ <;> decide

/-- C2 counterexample: with positive `*.ck` and exception `!www.ck` (tries as
built by the pipeline), `foo.www.ck` does *not* resolve to `foo.www.ck`. -/
theorem c2_counterexample :
    build_psl_tries [["*", "ck"]] [["www", "ck"]]
      = some
        (Rule.subrule [("ck", Rule.subrule [("*", Rule.subrule [("!", Rule.accept_this)])])],
         Rule.subrule [("ck", Rule.subrule [("www", Rule.subrule [("!", Rule.accept_this)])])]) ∧
    get_domain ["foo", "www", "ck"]
      (Rule.subrule [("ck", Rule.subrule [("www", Rule.subrule [("!", Rule.accept_this)])])])
      (Rule.subrule [("ck", Rule.subrule [("*", Rule.subrule [("!", Rule.accept_this)])])])
      ≠ some "foo.www.ck" := by
  exact ⟨rfl, by decide⟩

/-- C2 amended: the exception rule overrides the wildcard, and the exception
rule's *own* label sequence is the registrable domain: `foo.www.ck` resolves
to `www.ck`. -/
theorem c2_exception_result :
    get_domain ["foo", "www", "ck"]
      (Rule.subrule [("ck", Rule.subrule [("www", Rule.subrule [("!", Rule.accept_this)])])])
      (Rule.subrule [("ck", Rule.subrule [("*", Rule.subrule [("!", Rule.accept_this)])])])
      = some "www.ck" := by
  decide

/-- C3 counterexample: with exception rules `!a` and `!b.a` (tries as built
by the pipeline), the hostname `c.b.a` is matched by both; the resolver
returns the *longest* exception `b.a`, not the first/shortest `a` — the
phase-1 loop has no early exit and a later match overwrites an earlier one. -/
theorem c3_counterexample :
    build_psl_tries [] [["a"], ["b", "a"]]
      = some
        (Rule.subrule [],
         Rule.subrule [("a", Rule.subrule
            [("!", Rule.accept_this), ("b", Rule.subrule [("!", Rule.accept_this)])])]) ∧
    get_domain ["c", "b", "a"]
      (Rule.subrule [("a", Rule.subrule
        [("!", Rule.accept_this), ("b", Rule.subrule [("!", Rule.accept_this)])])])
      (Rule.subrule []) = some "b.a" ∧
    get_domain ["c", "b", "a"]
      (Rule.subrule [("a", Rule.subrule
        [("!", Rule.accept_this), ("b", Rule.subrule [("!", Rule.accept_this)])])])
      (Rule.subrule []) ≠ some "a" := by
  refine ⟨rfl, by decide, by decide⟩

/-- C4 counterexample: the three failure classes are not distinguishable
results.  An empty-label hostname (`a..b`), a single unmatched label
(`localhost`), and a hostname that is itself exactly a public suffix
(`co.uk` under the rule `co.uk`) all return the very same value `none` —
the generated Swift function has result type `String?` and collapses
`EmptyLabel`, `NoMatch` and `IsPublicSuffix` into `nil`. -/
theorem c4_counterexample :
    get_domain ["a", "", "b"] (Rule.subrule []) (Rule.subrule []) = none ∧
    get_domain ["localhost"] (Rule.subrule []) (Rule.subrule []) = none ∧
    get_domain ["co", "uk"] (Rule.subrule []) (chainTree ["uk", "co"]) = none ∧
    rules_to_tree [["co", "uk"]] = some (chainTree ["uk", "co"]) := by
  refine ⟨by decide, by decide, by decide, rfl⟩

/-- C6 counterexample: the parser does not guarantee non-empty labels.  The
line `a..b` becomes the positive rule `["a", "", "b"]`, whose middle label is
empty (Python `strip('.')` only removes *leading/trailing* dots). -/
theorem c6_counterexample :
    (get_public_suffixes ["a..b"]).1 = [["a", "", "b"]] ∧
    "" ∈ ["a", "", "b"] := by
  exact ⟨rfl, by decide⟩

/-- C9 counterexample: a returned registrable domain can consist of a single
label.  With exception rules `!a` and `!b.a` (so that the single-label
exception survives top-level pruning), the hostname `x.a` resolves to the
one-label string `"a"`, not to a suffix of at least two labels. -/
theorem c9_counterexample :
    build_psl_tries [] [["a"], ["b", "a"]]
      = some
        (Rule.subrule [],
         Rule.subrule [("a", Rule.subrule
            [("!", Rule.accept_this), ("b", Rule.subrule [("!", Rule.accept_this)])])]) ∧
    get_domain ["x", "a"]
      (Rule.subrule [("a", Rule.subrule
        [("!", Rule.accept_this), ("b", Rule.subrule [("!", Rule.accept_this)])])])
      (Rule.subrule []) = some "a" ∧
    ("a" : String) ≠ "x.a" := by
  refine ⟨rfl, by decide, by decide⟩

/-! ### Helper lemmas on the two scanning phases -/

/-- Any empty label anywhere makes phase 1 return `nil`: the loop checks
every label and never breaks early. -/
theorem phase1_mem_empty (ls : List String) :
    ∀ (a : List Rule) (L T : List String), "" ∈ ls → phase1 a L T ls = none := by
  induction ls with
  | nil => intro a L T h; simp at h
  | cons l rest ih =>
    intro a L T h
    rw [phase1]
    by_cases hl : l = ""
    · simp [hl]
    · rw [if_neg hl]
      rcases List.mem_cons.mp h with h1 | h2
      · exact absurd h1.symm hl
      · exact ih _ _ _ h2

/-- If phase 1 produced a value, every scanned label was non-empty. -/
theorem phase1_labels_ne (ls : List String) :
    ∀ (a : List Rule) (L T M : List String),
      phase1 a L T ls = some M → ∀ l ∈ ls, l ≠ "" := by
  induction ls with
  | nil => intro a L T M _ l hl; simp at hl
  | cons x rest ih =>
    intro a L T M h l hl
    rw [phase1] at h
    by_cases hx : x = ""
    · rw [if_pos hx] at h; exact absurd h (by simp)
    · rw [if_neg hx] at h
      rcases List.mem_cons.mp hl with h1 | h2
      · exact h1 ▸ hx
      · exact ih _ _ _ _ h l h2

/-- What phase 1 records, characterized: the value returned is the
accumulator as it stood at the *last* position where a matched rule had a
terminal child (the labels strictly before that position), or the initial
`longest` if no position matched.  In particular the scan continues after a
match and a later match overwrites an earlier one. -/
theorem phase1_eq_exceptionIdx (ls : List String) :
    ∀ (acc : List Rule) (L T : List String), (∀ l ∈ ls, l ≠ "") →
      phase1 acc L T ls
        = some (match exceptionIdx ls acc with
                | none => L
                | some k => T ++ ls.take k) := by
  induction ls with
  | nil => intro acc L T _; rfl
  | cons l rest ih =>
    intro acc L T h
    have hl : l ≠ "" := h l (List.mem_cons_self l rest)
    rw [phase1, if_neg hl,
      ih (newAccepted acc l) _ _ (fun x hx => h x (List.mem_cons_of_mem l hx))]
    rw [exceptionIdx]
    cases hE : exceptionIdx rest (newAccepted acc l) with
    | some k => simp [List.take_succ_cons]
    | none => cases hA : anyAccept acc <;> simp [hA]

/-- The final `accepted_rules` of phase 2 is the fold of the advance step
over the labels. -/
theorem phase2_snd (ls : List String) :
    ∀ (a : List Rule) (L T : List String),
      (phase2 a L T ls).2 = ls.foldl newAccepted a := by
  induction ls with
  | nil => intro a L T; rfl
  | cons l rest ih => intro a L T; rw [phase2, List.foldl_cons]; exact ih _ _ _

/-- The `longest` value phase 1 returns is either the initial one or the
first `k` scanned labels appended to the initial accumulator. -/
theorem phase1_fst_shape (ls : List String) :
    ∀ (a : List Rule) (L T M : List String), phase1 a L T ls = some M →
      M = L ∨ ∃ k, k ≤ ls.length ∧ M = T ++ ls.take k := by
  induction ls with
  | nil =>
    intro a L T M h
    rw [phase1] at h
    exact Or.inl (Option.some_injective _ h).symm
  | cons l rest ih =>
    intro a L T M h
    rw [phase1] at h
    by_cases hl : l = ""
    · rw [if_pos hl] at h; exact absurd h (by simp)
    · rw [if_neg hl] at h
      rcases ih _ _ _ _ h with h1 | ⟨k, hk, hM⟩
      · by_cases hA : anyAccept a
        · rw [if_pos hA] at h1
          exact Or.inr ⟨0, Nat.zero_le _, by simpa using h1⟩
        · rw [if_neg hA] at h1; exact Or.inl h1
      · refine Or.inr ⟨k + 1, by simpa using hk, ?_⟩
        simpa [List.take_succ_cons] using hM

/-- The `longest` value phase 2 ends with is either the initial one or the
first `k + 1` scanned labels appended to the initial accumulator. -/
theorem phase2_fst_shape (ls : List String) :
    ∀ (a : List Rule) (L T : List String),
      (phase2 a L T ls).1 = L ∨
      ∃ k, k < ls.length ∧ (phase2 a L T ls).1 = T ++ ls.take (k + 1) := by
  induction ls with
  | nil => intro a L T; exact Or.inl rfl
  | cons l rest ih =>
    intro a L T
    rw [phase2]
    rcases ih (newAccepted a l) (if anyAccept a then T ++ [l] else L) (T ++ [l]) with
      h1 | ⟨k, hk, h2⟩
    · rw [h1]
      by_cases hA : anyAccept a
      · exact Or.inr ⟨0, by simp, by simp [hA]⟩
      · rw [if_neg hA]; exact Or.inl rfl
    · refine Or.inr ⟨k + 1, by simpa using hk, ?_⟩
      rw [h2]
      simp [List.take_succ_cons]

/-! ### Claim theorems -/

/-- C3 amended: in phase 1, whenever a node in the matched-so-far set has a
terminal-sentinel child, the accumulator built from strictly earlier labels
is recorded as the exception match (`take k` at consumed-count `k`), but the
scan continues through the remaining labels and a later match overwrites an
earlier one, so when several exception rules match the same hostname the
*last/longest* match (farthest from the TLD) is the one recorded. -/
theorem c3_longest_exception_wins (n : Rule) (labels : List String)
    (h : ∀ l ∈ labels, l ≠ "") :
    phase1 [n] [] [] labels
      = some (match exceptionIdx labels [n] with
              | none => []
              | some k => labels.take k) := by
  simpa using phase1_eq_exceptionIdx labels [n] [] [] h

/-- Witness for `c3_longest_exception_wins` at the `!a`, `!b.a`, hostname
`c.b.a` scenario (scan order `a`, `b`, `c`). -/
theorem c3_longest_exception_wins_witness :
    (∀ l ∈ ["a", "b", "c"], l ≠ ("" : String)) ∧
    phase1
      [Rule.subrule [("a", Rule.subrule
        [("!", Rule.accept_this), ("b", Rule.subrule [("!", Rule.accept_this)])])]]
      [] [] ["a", "b", "c"]
      = some (match exceptionIdx ["a", "b", "c"]
                [Rule.subrule [("a", Rule.subrule
                  [("!", Rule.accept_this), ("b", Rule.subrule [("!", Rule.accept_this)])])]] with
              | none => []
              | some k => ["a", "b", "c"].take k) :=
  ⟨by decide, c3_longest_exception_wins _ _ (by decide)⟩

/-- C4 amended: every outcome of the resolver is a plain value of type
`Option String` (never an exception), but the three failure classifications
are all collapsed to `none`: any hostname with an empty label yields `none`,
and so do the `NoMatch` (`localhost`) and `IsPublicSuffix` (`co.uk` under
rule `co.uk`) situations, so callers cannot tell the failures apart. -/
theorem c4_outcomes_values :
    (∀ (n p : Rule) (pre post : List String),
      get_domain (pre ++ "" :: post) n p = none) ∧
    get_domain ["localhost"] (Rule.subrule []) (Rule.subrule []) = none ∧
    get_domain ["co", "uk"] (Rule.subrule []) (chainTree ["uk", "co"]) = none := by
  refine ⟨?_, by decide, by decide⟩
  intro n p pre post
  have h1 : phase1 [n] [] [] (pre ++ "" :: post).reverse = none :=
    phase1_mem_empty _ _ _ _ (by simp)
  simp only [get_domain]
  rw [h1]

/-- C8: if phase 1 found no exception and, after consuming every label, the
final matched-so-far set of the positive-trie walk contains a node with a
terminal-sentinel child, the whole hostname is itself a public suffix and
the resolver returns the no-registrable-domain outcome (`none`). -/
theorem c8_whole_host_public_suffix (host : List String) (n p : Rule)
    (h1 : phase1 [n] [] [] host.reverse = some [])
    (h2 : anyAccept (host.reverse.foldl newAccepted [p]) = true) :
    get_domain host n p = none := by
  have hacc : anyAccept (phase2 [p] [] [] host.reverse).2 = true := by
    rw [phase2_snd]; exact h2
  rcases hp : phase2 [p] [] [] host.reverse with ⟨lg, acc⟩
  rw [hp] at hacc
  simp [get_domain, h1, positivePart, hp, hacc]

/-- Witness for `c8_whole_host_public_suffix`: the bare rule `co.uk` and the
hostname `co.uk` itself. -/
theorem c8_whole_host_public_suffix_witness :
    phase1 [Rule.subrule []] [] [] (["co", "uk"].reverse) = some [] ∧
    anyAccept ((["co", "uk"].reverse).foldl newAccepted [chainTree ["uk", "co"]]) = true ∧
    get_domain ["co", "uk"] (Rule.subrule []) (chainTree ["uk", "co"]) = none :=
  ⟨by decide, by decide,
    c8_whole_host_public_suffix ["co", "uk"] _ _ (by decide) (by decide)⟩

/-- Reversing a TLD-first accumulator of `k` labels recovers the length-`k`
suffix of the hostname in its original order. -/
theorem reverse_take_reverse (host : List String) (k : Nat) :
    (host.reverse.take k).reverse = host.drop (host.length - k) := by
  rw [List.reverse_take]
  simp

/-- C9 amended: whenever the resolver returns a string, the hostname had no
empty label, and the string is the dot-joined form of a contiguous suffix of
the hostname's label sequence, in original left-to-right order, of length at
least one. -/
theorem c9_result_shape (host : List String) (n p : Rule) (s : String)
    (h : get_domain host n p = some s) :
    (∀ l ∈ host, l ≠ "") ∧
    ∃ k, 1 ≤ k ∧ k ≤ host.length ∧ s = joinDot (host.drop (host.length - k)) := by
  simp only [get_domain] at h
  cases hp1 : phase1 [n] [] [] host.reverse with
  | none => rw [hp1] at h; exact absurd h (by simp)
  | some L =>
    rw [hp1] at h
    dsimp only at h
    have hne : ∀ l ∈ host, l ≠ "" := fun l hl =>
      phase1_labels_ne _ _ _ _ _ hp1 l (List.mem_reverse.mpr hl)
    refine ⟨hne, ?_⟩
    by_cases hL : L = []
    · subst hL
      rw [if_neg (by simp)] at h
      rcases hp2 : phase2 [p] [] [] host.reverse with ⟨lg, acc⟩
      simp only [positivePart, hp2] at h
      by_cases hA : anyAccept acc
      · rw [if_pos hA] at h; exact absurd h (by simp)
      · rw [if_neg hA] at h
        by_cases hlg : lg = []
        · subst hlg
          rw [if_neg (by simp)] at h
          cases hrev : host.reverse with
          | nil => rw [hrev] at h; simp at h
          | cons l0 t =>
            cases t with
            | nil => rw [hrev] at h; simp at h
            | cons l1 rest =>
              rw [hrev] at h
              rw [if_neg (by simp only [List.length_cons]; omega)] at h
              have hs : s = l1 ++ "." ++ l0 := by
                have h' := (Option.some_injective _ h).symm
                simpa using h'
              have hhost : host = rest.reverse ++ [l1, l0] := by
                have := congrArg List.reverse hrev
                simpa using this
              have hlen : host.length = rest.length + 2 := by
                rw [hhost]; simp
              refine ⟨2, by omega, by omega, ?_⟩
              have hdrop : host.drop (host.length - 2) = [l1, l0] := by
                rw [hhost]
                have : (rest.reverse ++ [l1, l0]).length - 2 = rest.reverse.length := by
                  simp
                rw [this, List.drop_left]
              rw [hdrop, hs]
              rfl
        · rw [if_pos hlg] at h
          have hs : s = joinDot lg.reverse := (Option.some_injective _ h).symm
          rcases phase2_fst_shape host.reverse [p] [] [] with h1 | ⟨k, hk, h2⟩
          · rw [hp2] at h1; exact absurd h1 hlg
          · rw [hp2] at h2
            simp only [List.nil_append] at h2
            refine ⟨k + 1, by omega, ?_, ?_⟩
            · have := hk; simp only [List.length_reverse] at this; omega
            · rw [hs, h2, reverse_take_reverse]
    · rw [if_pos hL] at h
      have hs : s = joinDot L.reverse := (Option.some_injective _ h).symm
      rcases phase1_fst_shape _ _ _ _ _ hp1 with h1 | ⟨k, hk, h2⟩
      · exact absurd h1 hL
      · simp only [List.nil_append] at h2
        have hk1 : 1 ≤ k := by
          rcases Nat.eq_zero_or_pos k with rfl | hpos
          · rw [List.take_zero] at h2; exact absurd h2 hL
          · exact hpos
        refine ⟨k, hk1, ?_, ?_⟩
        · simpa using hk
        · rw [hs, h2, reverse_take_reverse]

/-- Witness for `c9_result_shape`: the rule `co.uk` and hostname
`x.co.uk`. -/
theorem c9_result_shape_witness :
    get_domain ["x", "co", "uk"] (Rule.subrule []) (chainTree ["uk", "co"])
      = some "x.co.uk" ∧
    ((∀ l ∈ ["x", "co", "uk"], l ≠ ("" : String)) ∧
     ∃ k, 1 ≤ k ∧ k ≤ (["x", "co", "uk"] : List String).length ∧
       "x.co.uk" = joinDot ((["x", "co", "uk"] : List String).drop
         ((["x", "co", "uk"] : List String).length - k))) :=
  ⟨by decide,
   c9_result_shape ["x", "co", "uk"] (Rule.subrule []) (chainTree ["uk", "co"])
     "x.co.uk" (by decide)⟩

/-! ### The `accept_this` placement invariant -/

/-- A successful keyed lookup finds one of the entries. -/
theorem dictLookup_mem (cs : List (String × Rule)) (k : String) (v : Rule)
    (h : dictLookup cs k = some v) : (k, v) ∈ cs := by
  induction cs with
  | nil => exact absurd h (by simp [dictLookup])
  | cons kv rest ih =>
    rcases kv with ⟨k0, v0⟩
    rw [dictLookup] at h
    by_cases hk : k0 = k
    · rw [if_pos hk] at h
      subst hk
      exact (Option.some_injective _ h) ▸ List.mem_cons_self _ _
    · rw [if_neg hk] at h
      exact List.mem_cons_of_mem _ (ih h)

/-- Every entry after `d[k] = v` is an old entry or the new binding. -/
theorem dictSet_mem (cs : List (String × Rule)) (k : String) (v : Rule)
    (a : String) (b : Rule) (h : (a, b) ∈ dictSet cs k v) :
    (a, b) ∈ cs ∨ (a = k ∧ b = v) := by
  induction cs with
  | nil =>
    rw [dictSet] at h
    rcases List.mem_singleton.mp h with h1
    exact Or.inr ⟨congrArg Prod.fst h1, congrArg Prod.snd h1⟩
  | cons kv rest ih =>
    rcases kv with ⟨k0, v0⟩
    rw [dictSet] at h
    by_cases hk : k0 = k
    · rw [if_pos hk] at h
      rcases List.mem_cons.mp h with h1 | h2
      · exact Or.inr ⟨congrArg Prod.fst h1, congrArg Prod.snd h1⟩
      · exact Or.inl (List.mem_cons_of_mem _ h2)
    · rw [if_neg hk] at h
      rcases List.mem_cons.mp h with h1 | h2
      · exact Or.inl (h1 ▸ List.mem_cons_self _ _)
      · rcases ih h2 with h3 | h3
        · exact Or.inl (List.mem_cons_of_mem _ h3)
        · exact Or.inr h3

/-- A successful insertion always yields a branch node. -/
theorem insertRule_subrule (ls : List String) :
    ∀ (t t' : Rule), insertRule ls t = some t' → ∃ cs, t' = Rule.subrule cs := by
  intro t t' h
  cases ls with
  | nil =>
    cases t with
    | accept_this => exact absurd h (by simp [insertRule])
    | subrule cs => exact ⟨_, (Option.some_injective _ h).symm⟩
  | cons l rest =>
    cases t with
    | accept_this => exact absurd h (by simp [insertRule])
    | subrule cs =>
      rw [insertRule] at h
      cases hc : insertRule rest ((dictLookup cs l).getD (Rule.subrule [])) with
      | none => rw [hc] at h; exact absurd h (by simp)
      | some child => rw [hc] at h; exact ⟨_, (Option.some_injective _ h).symm⟩

/-- A successful insertion preserves the placement invariant: `accept_this`
is only written under the terminal key `"!"`. -/
theorem insertRule_onlyBang (ls : List String) :
    ∀ (t t' : Rule), insertRule ls t = some t' → OnlyBang t → OnlyBang t' := by
  induction ls with
  | nil =>
    intro t t' h hb
    cases t with
    | accept_this => exact absurd h (by simp [insertRule])
    | subrule cs =>
      rw [insertRule] at h
      rw [← Option.some_injective _ h]
      cases hb with
      | node _ hacc hrec =>
        refine OnlyBang.node _ (fun k v hm hv => ?_) (fun k v hm => ?_)
        · rcases dictSet_mem _ _ _ _ _ hm with h1 | ⟨h1, _⟩
          · exact hacc k v h1 hv
          · exact h1
        · rcases dictSet_mem _ _ _ _ _ hm with h1 | ⟨_, h1⟩
          · exact hrec k v h1
          · exact h1 ▸ OnlyBang.accept
  | cons l rest ih =>
    intro t t' h hb
    cases t with
    | accept_this => exact absurd h (by simp [insertRule])
    | subrule cs =>
      rw [insertRule] at h
      cases hc : insertRule rest ((dictLookup cs l).getD (Rule.subrule [])) with
      | none => rw [hc] at h; exact absurd h (by simp)
      | some child =>
        rw [hc] at h
        rw [← Option.some_injective _ h]
        cases hb with
        | node _ hacc hrec =>
          have hchild : OnlyBang ((dictLookup cs l).getD (Rule.subrule [])) := by
            cases hl : dictLookup cs l with
            | none => exact OnlyBang.node [] (by simp) (by simp)
            | some v => exact hrec l v (dictLookup_mem _ _ _ hl)
          have hchild' : OnlyBang child := ih _ _ hc hchild
          rcases insertRule_subrule rest _ _ hc with ⟨ccs, rfl⟩
          refine OnlyBang.node _ (fun k v hm hv => ?_) (fun k v hm => ?_)
          · rcases dictSet_mem _ _ _ _ _ hm with h1 | ⟨_, h1⟩
            · exact hacc k v h1 hv
            · exact absurd (h1.symm.trans hv) (by simp)
          · rcases dictSet_mem _ _ _ _ _ hm with h1 | ⟨_, h1⟩
            · exact hrec k v h1
            · exact h1 ▸ hchild'

/-- Trees built by `rules_to_tree` satisfy the placement invariant and are
branch nodes. -/
theorem rules_to_tree_onlyBang (rules : List (List String)) (t : Rule)
    (h : rules_to_tree rules = some t) : OnlyBang t ∧ ∃ cs, t = Rule.subrule cs := by
  rw [rules_to_tree] at h
  have base : OnlyBang (Rule.subrule ([] : List (String × Rule))) :=
    OnlyBang.node [] (by simp) (by simp)
  have : ∀ (rs : List (List String)) (t0 t1 : Rule), OnlyBang t0 →
      (∃ cs, t0 = Rule.subrule cs) →
      rs.foldlM (fun t r => insertRule r.reverse t) t0 = some t1 →
      OnlyBang t1 ∧ ∃ cs, t1 = Rule.subrule cs := by
    intro rs
    induction rs with
    | nil =>
      intro t0 t1 hb hs h
      rw [List.foldlM_nil] at h
      exact (Option.some_injective _ h) ▸ ⟨hb, hs⟩
    | cons r rest ih =>
      intro t0 t1 hb _ h
      rw [List.foldlM_cons] at h
      cases hstep : insertRule r.reverse t0 with
      | none => rw [hstep] at h; exact absurd h (by simp)
      | some t2 =>
        rw [hstep] at h
        exact ih t2 t1 (insertRule_onlyBang _ _ _ hstep hb)
          (insertRule_subrule _ _ _ hstep) h
  exact this rules _ _ base ⟨[], rfl⟩ h

/-- `filter_top_rules` preserves the placement invariant and node shape. -/
theorem filter_top_rules_onlyBang (t : Rule) (h : OnlyBang t) :
    OnlyBang (filter_top_rules t) := by
  cases h with
  | accept => exact OnlyBang.accept
  | node cs hacc hrec =>
    refine OnlyBang.node _ (fun k v hm hv => ?_) (fun k v hm => ?_)
    · exact hacc k v (List.mem_of_mem_filter hm) hv
    · exact hrec k v (List.mem_of_mem_filter hm)

/-- One advance of the matched-so-far set, starting from branch nodes
satisfying the invariant and reading a non-sentinel label, again yields only
branch nodes satisfying the invariant: `accept_this` can only be pulled out
of a node by the lookup under `"!"` itself. -/
theorem newAccepted_allSub (a : List Rule) (l : String) (hl : l ≠ "!")
    (ha : ∀ r ∈ a, (∃ cs, r = Rule.subrule cs) ∧ OnlyBang r) :
    ∀ r' ∈ newAccepted a l, (∃ cs, r' = Rule.subrule cs) ∧ OnlyBang r' := by
  intro r' hr'
  rw [newAccepted] at hr'
  rcases List.mem_flatMap.mp hr' with ⟨r, hr, hmem⟩
  rcases ha r hr with ⟨⟨cs, rfl⟩, hb⟩
  cases hb with
  | node _ hacc hrec =>
    have hval : ∀ key : String, key ≠ "!" →
        dictLookup (Rule.subrule cs).subruleGet key = some r' →
        (∃ cs', r' = Rule.subrule cs') ∧ OnlyBang r' := by
      intro key hkey hl'
      have hmem' : (key, r') ∈ cs := dictLookup_mem _ _ _ hl'
      have hnb : r' ≠ Rule.accept_this := fun hacc' =>
        hkey (hacc key r' hmem' hacc')
      refine ⟨?_, hrec key r' hmem'⟩
      cases r' with
      | accept_this => exact absurd rfl hnb
      | subrule cs' => exact ⟨cs', rfl⟩
    rcases List.mem_append.mp hmem with hm | hm
    · exact hval "*" (by decide) (Option.mem_toList.mp hm)
    · exact hval l hl (Option.mem_toList.mp hm)

/-- The invariant propagates through the whole scan. -/
theorem foldl_allSub (ls : List String) :
    ∀ a : List Rule, (∀ l ∈ ls, l ≠ "!") →
      (∀ r ∈ a, (∃ cs, r = Rule.subrule cs) ∧ OnlyBang r) →
      ∀ r ∈ ls.foldl newAccepted a, (∃ cs, r = Rule.subrule cs) ∧ OnlyBang r := by
  induction ls with
  | nil => intro a _ ha; simpa using ha
  | cons l rest ih =>
    intro a hl ha
    rw [List.foldl_cons]
    exact ih _ (fun x hx => hl x (List.mem_cons_of_mem _ hx))
      (newAccepted_allSub a l (hl l (List.mem_cons_self _ _)) ha)

/-- C10: for a hostname containing no label equal to the sentinel `"!"`, at
every point of the scan — over either trie built by the pipeline — every
member of the `accepted_rules` set is a `subrule` branch node, so the Swift
`subrule` accessor is never applied to `Rule.accept_this` and its
`assert(false)` branch is unreachable. -/
theorem c10_accept_this_unreachable (pos neg : List (List String)) (P N : Rule)
    (host : List String)
    (hP : rules_to_tree pos = some P) (hN : rules_to_tree neg = some N)
    (hh : ∀ l ∈ host, l ≠ "!") :
    ∀ k : Nat,
      (∀ r ∈ (host.reverse.take k).foldl newAccepted [filter_top_rules N],
        ∃ cs, r = Rule.subrule cs) ∧
      (∀ r ∈ (host.reverse.take k).foldl newAccepted [filter_top_rules P],
        ∃ cs, r = Rule.subrule cs) := by
  intro k
  have hlab : ∀ l ∈ host.reverse.take k, l ≠ "!" := fun l hl =>
    hh l (List.mem_reverse.mp (List.mem_of_mem_take hl))
  have start : ∀ t : Rule, rules_to_tree pos = some t ∨ rules_to_tree neg = some t →
      ∀ r ∈ [filter_top_rules t], (∃ cs, r = Rule.subrule cs) ∧ OnlyBang r := by
    intro t ht r hr
    rcases List.mem_singleton.mp hr with rfl
    have hb : OnlyBang t ∧ ∃ cs, t = Rule.subrule cs := by
      rcases ht with h | h
      · exact rules_to_tree_onlyBang _ _ h
      · exact rules_to_tree_onlyBang _ _ h
    rcases hb with ⟨hb1, cs, rfl⟩
    exact ⟨⟨_, rfl⟩, filter_top_rules_onlyBang _ hb1⟩
  constructor
  · intro r hr
    exact (foldl_allSub _ _ hlab (start N (Or.inr hN)) r hr).1
  · intro r hr
    exact (foldl_allSub _ _ hlab (start P (Or.inl hP)) r hr).1

/-- Witness for `c10_accept_this_unreachable`: the pipeline tries for
positive `co.uk` and exception `!www.ck`, hostname `x.co.uk`. -/
theorem c10_accept_this_unreachable_witness :
    (∀ l ∈ ["x", "co", "uk"], l ≠ ("!" : String)) ∧
    (∀ k : Nat,
      (∀ r ∈ ((["x", "co", "uk"] : List String).reverse.take k).foldl newAccepted
          [filter_top_rules (chainTree ["ck", "www"])],
        ∃ cs, r = Rule.subrule cs) ∧
      (∀ r ∈ ((["x", "co", "uk"] : List String).reverse.take k).foldl newAccepted
          [filter_top_rules (chainTree ["uk", "co"])],
        ∃ cs, r = Rule.subrule cs)) :=
  ⟨by decide,
   c10_accept_this_unreachable [["co", "uk"]] [["www", "ck"]]
     (chainTree ["uk", "co"]) (chainTree ["ck", "www"])
     ["x", "co", "uk"] rfl rfl (by decide)⟩

/-! ### Parser lemmas -/

/-- Python `split('.')` never produces an empty list of pieces. -/
theorem splitOnDots_ne_nil (cs : List Char) : splitOnDots cs ≠ [] := by
  cases cs with
  | nil => simp [splitOnDots]
  | cons c rest =>
    rw [splitOnDots]
    by_cases hc : c = '.'
    · simp [hc]
    · rw [if_neg hc]
      cases h : splitOnDots rest <;> simp

/-- Pieces produced by `split('.')` contain no dot. -/
theorem splitOnDots_no_dot (cs : List Char) :
    ∀ p ∈ splitOnDots cs, ∀ c ∈ p, c ≠ '.' := by
  induction cs with
  | nil => intro p hp c hc; rcases List.mem_singleton.mp hp with rfl; simp at hc
  | cons x rest ih =>
    intro p hp c hc
    rw [splitOnDots] at hp
    by_cases hx : x = '.'
    · rw [if_pos hx] at hp
      rcases List.mem_cons.mp hp with rfl | hp2
      · simp at hc
      · exact ih p hp2 c hc
    · rw [if_neg hx] at hp
      cases hsplit : splitOnDots rest with
      | nil => exact absurd hsplit (splitOnDots_ne_nil rest)
      | cons t ts =>
        rw [hsplit] at hp
        rcases List.mem_cons.mp hp with rfl | hp2
        · rcases List.mem_cons.mp hc with rfl | hc2
          · exact hx
          · exact ih t (hsplit ▸ List.mem_cons_self t ts) c hc2
        · exact ih p (hsplit ▸ List.mem_cons_of_mem t hp2) c hc

/-- Every character of every piece of `split('.')` is a character of the
input. -/
theorem splitOnDots_chars (cs : List Char) :
    ∀ p ∈ splitOnDots cs, ∀ c ∈ p, c ∈ cs := by
  induction cs with
  | nil => intro p hp c hc; rcases List.mem_singleton.mp hp with rfl; simp at hc
  | cons x rest ih =>
    intro p hp c hc
    rw [splitOnDots] at hp
    by_cases hx : x = '.'
    · rw [if_pos hx] at hp
      rcases List.mem_cons.mp hp with rfl | hp2
      · simp at hc
      · exact List.mem_cons_of_mem x (ih p hp2 c hc)
    · rw [if_neg hx] at hp
      cases hsplit : splitOnDots rest with
      | nil => exact absurd hsplit (splitOnDots_ne_nil rest)
      | cons t ts =>
        rw [hsplit] at hp
        rcases List.mem_cons.mp hp with rfl | hp2
        · rcases List.mem_cons.mp hc with rfl | hc2
          · exact List.mem_cons_self c rest
          · exact List.mem_cons_of_mem x
              (ih t (hsplit ▸ List.mem_cons_self t ts) c hc2)
        · exact List.mem_cons_of_mem x
            (ih p (hsplit ▸ List.mem_cons_of_mem t hp2) c hc)

/-- Every rule produced by normalizing a token is non-empty, and each of its
labels is dot-free and an image of lowercasing. -/
theorem normalizeToken_good (cs : List Char) :
    normalizeToken cs ≠ [] ∧
    ∀ lab ∈ normalizeToken cs, ∀ c ∈ lab.toList,
      c ≠ '.' ∧ ∃ c0, c = Char.toLower c0 := by
  constructor
  · rw [normalizeToken]
    intro h
    exact splitOnDots_ne_nil _ (List.map_eq_nil_iff.mp h)
  · intro lab hlab c hc
    rw [normalizeToken] at hlab
    rcases List.mem_map.mp hlab with ⟨p, hp, rfl⟩
    have hc' : c ∈ p := hc
    refine ⟨splitOnDots_no_dot _ p hp c hc', ?_⟩
    have hmem : c ∈ (stripDots cs).map Char.toLower := splitOnDots_chars _ p hp c hc'
    rcases List.mem_map.mp hmem with ⟨c0, _, rfl⟩
    exact ⟨c0, rfl⟩

/-- C6 amended: every rule the parser produces (positive or negative) has at
least one label, every label is dot-free and lowercased (an image of
`lower()`), and a line whose first token is empty or starts with `//`
contributes nothing.  (Labels are *not* guaranteed non-empty: consecutive
dots survive `strip('.')`.) -/
theorem c6_parser_invariant :
    (∀ (lines : List String) (r : List String),
      (r ∈ (get_public_suffixes lines).1 ∨ r ∈ (get_public_suffixes lines).2) →
      r ≠ [] ∧ ∀ lab ∈ r, ∀ c ∈ lab.toList,
        c ≠ '.' ∧ ∃ c0, c = Char.toLower c0) ∧
    (∀ (line : String) (rest : List String),
      (lineToken line.toList = [] ∨ startsWithComment (lineToken line.toList) = true) →
      get_public_suffixes (line :: rest) = get_public_suffixes rest) := by
  constructor
  · have main : ∀ (lines : List String) (acc : List (List String) × List (List String)),
        (∀ r ∈ acc.1, r ≠ [] ∧ ∀ lab ∈ r, ∀ c ∈ lab.toList,
          c ≠ '.' ∧ ∃ c0, c = Char.toLower c0) →
        (∀ r ∈ acc.2, r ≠ [] ∧ ∀ lab ∈ r, ∀ c ∈ lab.toList,
          c ≠ '.' ∧ ∃ c0, c = Char.toLower c0) →
        ∀ r, (r ∈ (lines.foldl parseLine acc).1 ∨ r ∈ (lines.foldl parseLine acc).2) →
        r ≠ [] ∧ ∀ lab ∈ r, ∀ c ∈ lab.toList,
          c ≠ '.' ∧ ∃ c0, c = Char.toLower c0 := by
      intro lines
      induction lines with
      | nil =>
        intro acc h1 h2 r hr
        rcases hr with hr | hr
        · exact h1 r hr
        · exact h2 r hr
      | cons line rest ih =>
        intro acc h1 h2 r hr
        rw [List.foldl_cons] at hr
        refine ih (parseLine acc line) ?_ ?_ r hr
        all_goals
          intro x hx
          simp only [parseLine] at hx
          by_cases ht : lineToken line.toList = []
          · rw [if_pos ht] at hx
            first | exact h1 x hx | exact h2 x hx
          · rw [if_neg ht] at hx
            by_cases hcm : startsWithComment (lineToken line.toList) = true
            · rw [if_pos hcm] at hx
              first | exact h1 x hx | exact h2 x hx
            · rw [if_neg hcm] at hx
              by_cases hbang : (lineToken line.toList).head? = some '!'
              · rw [if_pos hbang] at hx
                first
                  | exact h1 x hx
                  | (rcases List.mem_append.mp hx with hold | hnew
                     · exact h2 x hold
                     · rcases List.mem_singleton.mp hnew with rfl
                       exact normalizeToken_good _)
              · rw [if_neg hbang] at hx
                first
                  | exact h2 x hx
                  | (rcases List.mem_append.mp hx with hold | hnew
                     · exact h1 x hold
                     · rcases List.mem_singleton.mp hnew with rfl
                       exact normalizeToken_good _)
    intro lines r hr
    exact main lines ([], []) (by simp) (by simp) r hr
  · intro line rest h
    rw [get_public_suffixes, get_public_suffixes, List.foldl_cons]
    rcases h with h | h
    · rw [parseLine, if_pos h]
    · rw [parseLine]
      by_cases ht : lineToken line.toList = []
      · rw [if_pos ht]
      · rw [if_neg ht, if_pos h]

/-- Witness for `c6_parser_invariant`: the line `Foo.COM x` yields the
positive rule `["foo", "com"]`, and the comment line `// c` is skipped. -/
theorem c6_parser_invariant_witness :
    (["foo", "com"] ∈ (get_public_suffixes ["Foo.COM x", "!www.ck"]).1 ∨
      ["foo", "com"] ∈ (get_public_suffixes ["Foo.COM x", "!www.ck"]).2) ∧
    (["foo", "com"] ≠ ([] : List String) ∧
      ∀ lab ∈ (["foo", "com"] : List String), ∀ c ∈ lab.toList,
        c ≠ '.' ∧ ∃ c0, c = Char.toLower c0) ∧
    (lineToken ("// c").toList = [] ∨
      startsWithComment (lineToken ("// c").toList) = true) ∧
    get_public_suffixes ["// c", "a.b"] = get_public_suffixes ["a.b"] :=
  ⟨Or.inl (by decide),
   c6_parser_invariant.1 ["Foo.COM x", "!www.ck"] ["foo", "com"] (Or.inl (by decide)),
   Or.inr (by decide),
   c6_parser_invariant.2 "// c" ["a.b"] (Or.inr (by decide))⟩

/-! ### Single-rule walks -/

/-- Phase 1 with an empty matched-so-far set just scans for empty labels. -/
theorem phase1_nil_acc (ls : List String) :
    ∀ L T : List String, (∀ l ∈ ls, l ≠ "") → phase1 [] L T ls = some L := by
  induction ls with
  | nil => intro L T _; rfl
  | cons x rest ih =>
    intro L T h
    rw [phase1, if_neg (h x (List.mem_cons_self _ _))]
    show phase1 [] L (T ++ [x]) rest = some L
    exact ih _ _ (fun y hy => h y (List.mem_cons_of_mem _ hy))

/-- Phase 1 over the empty trie finds nothing. -/
theorem phase1_empty_trie (ls : List String) :
    ∀ L T : List String, (∀ l ∈ ls, l ≠ "") →
      phase1 [Rule.subrule []] L T ls = some L := by
  intro L T h
  cases ls with
  | nil => rfl
  | cons x rest =>
    rw [phase1, if_neg (h x (List.mem_cons_self _ _))]
    show phase1 [] L (T ++ [x]) rest = some L
    exact phase1_nil_acc _ _ _ (fun y hy => h y (List.mem_cons_of_mem _ hy))

/-- Phase 2 with an empty matched-so-far set changes nothing. -/
theorem phase2_nil_acc (ls : List String) :
    ∀ L T : List String, phase2 [] L T ls = (L, []) := by
  induction ls with
  | nil => intro L T; rfl
  | cons x rest ih =>
    intro L T
    rw [phase2]
    show phase2 [] L (T ++ [x]) rest = (L, [])
    exact ih _ _

/-- Flattening a constant function over `replicate` yields a `replicate`. -/
theorem flatMap_replicate_const (m : Nat) (f : Rule → List Rule) (a c : Rule)
    (j : Nat) (h : f a = List.replicate j c) :
    (List.replicate m a).flatMap f = List.replicate (m * j) c := by
  induction m with
  | zero => simp
  | succ k ih =>
    rw [List.replicate_succ, List.flatMap_cons, ih, h, ← List.replicate_add]
    congr 1
    ring

/-- Every `chainTree` is a branch node. -/
theorem chainTree_shape (ls : List String) : ∃ cs, chainTree ls = Rule.subrule cs := by
  cases ls with
  | nil => exact ⟨_, rfl⟩
  | cons x xs => exact ⟨_, rfl⟩

/-- Walking the branchless trie of a single rule along that rule's own labels
followed by one extra non-sentinel label records the whole scanned hostname
and empties the matched-so-far set. -/
theorem phase2_chain (xs : List String) :
    ∀ (m : Nat) (l : String) (L T : List String), 0 < m → l ≠ "!" →
      phase2 (List.replicate m (chainTree xs)) L T (xs ++ [l])
        = (T ++ (xs ++ [l]), []) := by
  induction xs with
  | nil =>
    intro m l L T hm hl
    rw [List.nil_append, phase2]
    have hany : anyAccept (List.replicate m (chainTree [])) = true := by
      cases m with
      | zero => exact absurd hm (by simp)
      | succ k =>
        rw [List.replicate_succ, anyAccept, List.any_cons]
        have : hasAcceptThis (chainTree []) = true := by decide
        rw [this, Bool.true_or]
    have hnew : newAccepted (List.replicate m (chainTree [])) l = [] := by
      rw [newAccepted]
      have hf : (dictLookup (chainTree []).subruleGet "*").toList ++
          (dictLookup (chainTree []).subruleGet l).toList = List.replicate 0 (chainTree []) := by
        have h1 : dictLookup (chainTree []).subruleGet "*" = none := rfl
        have h2 : dictLookup (chainTree []).subruleGet l = none := by
          show dictLookup [("!", Rule.accept_this)] l = none
          rw [dictLookup, if_neg (fun hx => hl hx.symm)]
          rfl
        rw [h1, h2]
        rfl
      rw [flatMap_replicate_const m _ _ _ 0 hf]
      simp
    rw [hany, hnew, if_pos rfl, phase2_nil_acc]
  | cons x rest ih =>
    intro m l L T hm hl
    rw [List.cons_append, phase2]
    have hcont : (dictLookup (chainTree (x :: rest)).subruleGet "*").toList ++
        (dictLookup (chainTree (x :: rest)).subruleGet x).toList
        = List.replicate (if x = "*" then 2 else 1) (chainTree rest) := by
      show (dictLookup [(x, chainTree rest)] "*").toList ++
        (dictLookup [(x, chainTree rest)] x).toList = _
      by_cases hx : x = "*"
      · subst hx
        simp [dictLookup, List.replicate]
      · simp [dictLookup, hx]
    have hnew : newAccepted (List.replicate m (chainTree (x :: rest))) x
        = List.replicate (m * if x = "*" then 2 else 1) (chainTree rest) := by
      rw [newAccepted]
      exact flatMap_replicate_const m _ _ _ _ hcont
    have hpos : 0 < m * if x = "*" then 2 else 1 := by
      by_cases hx : x = "*" <;> simp [hx] <;> omega
    rw [hnew]
    rw [ih _ l _ (T ++ [x]) hpos hl]
    rw [List.append_assoc]
    rfl

/-- A single rule compiles to its branchless chain. -/
theorem insertRule_empty (ls : List String) :
    insertRule ls (Rule.subrule []) = some (chainTree ls) := by
  induction ls with
  | nil => rfl
  | cons x rest ih =>
    rw [insertRule]
    show (match insertRule rest ((dictLookup [] x).getD (Rule.subrule [])) with
      | none => none
      | some child => some (Rule.subrule (dictSet [] x child))) = _
    rw [show dictLookup [] x = none from rfl]
    show (match insertRule rest (Rule.subrule []) with
      | none => none
      | some child => some (Rule.subrule (dictSet [] x child))) = _
    rw [ih]
    rfl

/-- `rules_to_tree` on a one-rule set. -/
theorem rules_to_tree_single (r : List String) :
    rules_to_tree [r] = some (chainTree r.reverse) := by
  rw [rules_to_tree, List.foldlM_cons, insertRule_empty]
  rfl

/-- Pruning keeps a chain of length at least two intact. -/
theorem filter_chain_two (x y : String) (ys : List String) :
    filter_top_rules (chainTree (x :: y :: ys)) = chainTree (x :: y :: ys) := by
  rcases chainTree_shape ys with ⟨cs, hcs⟩
  show Rule.subrule ([(x, chainTree (y :: ys))].filter (fun kv => !isAcceptThisDict kv.2))
    = Rule.subrule [(x, chainTree (y :: ys))]
  rw [show chainTree (y :: ys) = Rule.subrule [(y, chainTree ys)] from rfl, hcs]
  rfl

/-- C7: for a positive rule with no wildcard label, all of whose labels are
non-empty, and a non-empty, non-sentinel extra label, the hostname
`label.<rule>` resolves (against the tries the pipeline builds from exactly
that rule) to exactly `label.<rule>`. -/
theorem c7_label_rule_resolves (r : List String) (l : String)
    (hr0 : r ≠ []) (hrE : ∀ x ∈ r, x ≠ "") (hW : "*" ∉ r)
    (hl : l ≠ "") (hlb : l ≠ "!") :
    build_psl_tries [r] [] = some (filter_top_rules (chainTree r.reverse), Rule.subrule []) ∧
    get_domain (l :: r) (Rule.subrule []) (filter_top_rules (chainTree r.reverse))
      = some (joinDot (l :: r)) := by
  have hlabels : ∀ x ∈ (l :: r).reverse, x ≠ "" := by
    intro x hx
    rcases List.mem_cons.mp (List.mem_reverse.mp hx) with rfl | hxr
    · exact hl
    · exact hrE x hxr
  constructor
  · rw [build_psl_tries, rules_to_tree_single]
    rfl
  · simp only [get_domain]
    rw [phase1_empty_trie _ _ _ hlabels]
    dsimp only
    rw [if_neg (fun hcontr => hcontr rfl)]
    have hrev : (l :: r).reverse = r.reverse ++ [l] := by simp
    rcases hx : r.reverse with _ | ⟨x, xs⟩
    · exact absurd (by simpa using congrArg List.reverse hx) hr0
    · cases xs with
      | nil =>
        have hr1 : r = [x] := by
          have := congrArg List.reverse hx
          simpa using this
        rw [hrev, hx]
        show some (l ++ "." ++ x) = some (joinDot (l :: r))
        rw [hr1]
        rfl
      | cons y ys =>
        rw [hrev, hx, filter_chain_two, positivePart]
        have h2 := phase2_chain (x :: y :: ys) 1 l [] [] (by omega) hlb
        rw [show List.replicate 1 (chainTree (x :: y :: ys))
          = [chainTree (x :: y :: ys)] from rfl] at h2
        rw [h2]
        show some (joinDot (((x :: y :: ys) ++ [l]).reverse)) = some (joinDot (l :: r))
        have : ((x :: y :: ys) ++ [l]).reverse = l :: r := by
          rw [← hx, ← hrev, List.reverse_reverse]
        rw [this]

/-- Witness for `c7_label_rule_resolves`: rule `co.uk`, extra label `x`. -/
theorem c7_label_rule_resolves_witness :
    build_psl_tries [["co", "uk"]] []
      = some (filter_top_rules (chainTree (["co", "uk"] : List String).reverse),
              Rule.subrule []) ∧
    get_domain ["x", "co", "uk"] (Rule.subrule [])
      (filter_top_rules (chainTree (["co", "uk"] : List String).reverse))
      = some (joinDot ["x", "co", "uk"]) :=
  c7_label_rule_resolves ["co", "uk"] "x" (by decide) (by decide) (by decide)
    (by decide) (by decide)

/-! ### Pruning-equivalence infrastructure -/

/-- Lookup misses when the key is absent. -/
theorem dictLookup_eq_none (cs : List (String × Rule)) (k : String)
    (h : k ∉ cs.map Prod.fst) : dictLookup cs k = none := by
  induction cs with
  | nil => rfl
  | cons kv rest ih =>
    rcases kv with ⟨k0, v0⟩
    rw [dictLookup]
    have hk : k0 ≠ k := by
      intro hk
      exact h (by simp [hk])
    rw [if_neg hk]
    exact ih (fun hm => h (by simp at hm ⊢; exact Or.inr hm))

/-- Keys after `d[k] = v` are old keys or `k`. -/
theorem dictSet_keys_sub (cs : List (String × Rule)) (k : String) (v : Rule)
    (a : String) (h : a ∈ (dictSet cs k v).map Prod.fst) :
    a ∈ cs.map Prod.fst ∨ a = k := by
  rcases List.mem_map.mp h with ⟨⟨a', b⟩, hm, rfl⟩
  rcases dictSet_mem _ _ _ _ _ hm with h1 | ⟨h1, _⟩
  · exact Or.inl (List.mem_map.mpr ⟨(a', b), h1, rfl⟩)
  · exact Or.inr h1

/-- `d[k] = v` preserves key distinctness. -/
theorem dictSet_nodup (cs : List (String × Rule)) (k : String) (v : Rule)
    (h : (cs.map Prod.fst).Nodup) : ((dictSet cs k v).map Prod.fst).Nodup := by
  induction cs with
  | nil => simp [dictSet]
  | cons kv rest ih =>
    rcases kv with ⟨k0, v0⟩
    rw [dictSet]
    rw [List.map_cons, List.nodup_cons] at h
    by_cases hk : k0 = k
    · subst hk
      rw [if_pos rfl, List.map_cons, List.nodup_cons]
      exact h
    · rw [if_neg hk, List.map_cons, List.nodup_cons]
      refine ⟨fun hm => ?_, ih h.2⟩
      rcases dictSet_keys_sub _ _ _ _ hm with h1 | h1
      · exact h.1 h1
      · exact hk h1

/-- Characterization of the pruning test. -/
theorem isAcceptThisDict_iff (r : Rule) :
    isAcceptThisDict r = true ↔ r = Rule.subrule [("!", Rule.accept_this)] := by
  constructor
  · intro h
    cases r with
    | accept_this => exact absurd h (by simp [isAcceptThisDict])
    | subrule cs =>
      match cs, h with
      | [(k, Rule.accept_this)], h =>
        have : k = "!" := by simpa [isAcceptThisDict] using h
        rw [this]
  · intro h
    rw [h]
    rfl

/-- A match in a filtered rule set is a match in the full one. -/
theorem anyAccept_of_filter (xs : List Rule) (p : Rule → Bool)
    (h : anyAccept (xs.filter p) = true) : anyAccept xs = true := by
  rw [anyAccept, List.any_eq_true] at h ⊢
  rcases h with ⟨x, hx, hacc⟩
  exact ⟨x, List.mem_of_mem_filter hx, hacc⟩

/-- A root node with no terminal entry never matches. -/
theorem rootAnyAccept (cs : List (String × Rule)) (hnb : ∀ v, ("!", v) ∉ cs) :
    anyAccept [Rule.subrule cs] = false := by
  have hlk : dictLookup cs "!" = none := by
    refine dictLookup_eq_none cs "!" (fun hm => ?_)
    rcases List.mem_map.mp hm with ⟨⟨k, v⟩, hkv, hk⟩
    exact hnb v (by rw [show k = "!" from hk] at hkv; exact hkv)
  simp [anyAccept, hasAcceptThis, Rule.subruleGet, hlk]

/-- Looking up in the pruned root: same as the unpruned lookup unless the
value found was exactly the pruned `{'!': True}` subtree.  Requires distinct
keys. -/
theorem dictLookup_filterATD (cs : List (String × Rule)) (k : String)
    (hnd : (cs.map Prod.fst).Nodup) :
    dictLookup (cs.filter (fun kv => !isAcceptThisDict kv.2)) k
      = match dictLookup cs k with
        | some v => if isAcceptThisDict v then none else some v
        | none => none := by
  induction cs with
  | nil => rfl
  | cons kv rest ih =>
    rcases kv with ⟨k0, v0⟩
    rw [List.map_cons, List.nodup_cons] at hnd
    rw [List.filter_cons]
    by_cases hdrop : isAcceptThisDict v0 = true
    · rw [if_neg (by simp [hdrop])]
      rw [dictLookup]
      by_cases hk : k0 = k
      · subst hk
        rw [if_pos rfl, ih hnd.2, dictLookup_eq_none rest k0 hnd.1]
        simp [hdrop]
      · rw [if_neg hk]
        exact ih hnd.2
    · rw [if_pos (by simp [hdrop])]
      rw [dictLookup, dictLookup]
      by_cases hk : k0 = k
      · rw [if_pos hk, if_pos hk]
        simp [hdrop]
      · rw [if_neg hk, if_neg hk]
        exact ih hnd.2

/-- Advancing from the pruned root is advancing from the unpruned root and
then discarding the pruned `{'!': True}` children. -/
theorem newAccepted_root_filter (cs : List (String × Rule)) (l : String)
    (hnd : (cs.map Prod.fst).Nodup) :
    newAccepted [filter_top_rules (Rule.subrule cs)] l
      = (newAccepted [Rule.subrule cs] l).filter (fun r => !isAcceptThisDict r) := by
  have key : ∀ k, (dictLookup (cs.filter (fun kv => !isAcceptThisDict kv.2)) k).toList
      = ((dictLookup cs k).toList).filter (fun r => !isAcceptThisDict r) := by
    intro k
    rw [dictLookup_filterATD cs k hnd]
    cases h : dictLookup cs k with
    | none => rfl
    | some v =>
      by_cases hv : isAcceptThisDict v = true
      · simp [hv]
      · simp [hv]
  rw [show filter_top_rules (Rule.subrule cs)
    = Rule.subrule (cs.filter (fun kv => !isAcceptThisDict kv.2)) from rfl]
  simp only [newAccepted, List.flatMap_cons, List.flatMap_nil, List.append_nil,
    List.filter_append, Rule.subruleGet]
  rw [key, key]

/-- Discarded `{'!': True}` nodes contribute nothing to the next advance, as
long as the label read is not the terminal sentinel itself. -/
theorem newAccepted_filter_eq (xs : List Rule) (l : String) (hl : l ≠ "!") :
    newAccepted (xs.filter (fun r => !isAcceptThisDict r)) l = newAccepted xs l := by
  induction xs with
  | nil => rfl
  | cons x rest ih =>
    rw [List.filter_cons]
    by_cases hx : isAcceptThisDict x = true
    · rw [if_neg (by simp [hx])]
      have hatd : x = Rule.subrule [("!", Rule.accept_this)] :=
        (isAcceptThisDict_iff x).mp hx
      have hcontrib : (dictLookup x.subruleGet "*").toList ++
          (dictLookup x.subruleGet l).toList = [] := by
        rw [hatd]
        show (dictLookup [("!", Rule.accept_this)] "*").toList ++
          (dictLookup [("!", Rule.accept_this)] l).toList = []
        rw [show dictLookup [("!", Rule.accept_this)] "*" = none from rfl]
        rw [dictLookup, if_neg (fun hc => hl hc.symm)]
        rfl
      rw [ih]
      simp only [newAccepted, List.flatMap_cons]
      rw [hcontrib, List.nil_append]
    · rw [if_pos (by simp [hx])]
      simp only [newAccepted, List.flatMap_cons]
      congr 1

/-- The final `accepted_rules` of phase 2 does not depend on the incoming
`longest`, and the final `longest` either ignores the incoming value (a later
match overwrote it on both runs, identically) or each run returns its own
incoming value. -/
theorem phase2_longest_or (ls : List String) :
    ∀ (a : List Rule) (T L L' : List String),
      (phase2 a L T ls).2 = (phase2 a L' T ls).2 ∧
      ((phase2 a L T ls).1 = (phase2 a L' T ls).1 ∨
       ((phase2 a L T ls).1 = L ∧ (phase2 a L' T ls).1 = L')) := by
  induction ls with
  | nil => intro a T L L'; exact ⟨rfl, Or.inr ⟨rfl, rfl⟩⟩
  | cons x rest ih =>
    intro a T L L'
    rw [phase2, phase2]
    by_cases hA : anyAccept a = true
    · rw [if_pos hA, if_pos hA]
      exact ⟨rfl, Or.inl rfl⟩
    · rw [if_neg hA, if_neg hA]
      exact ih (newAccepted a x) (T ++ [x]) L L'

/-- Inserting a non-empty rule whose leading (TLD) label is not `"!"` keeps
the root's keys distinct and keeps the root free of a `"!"` entry. -/
theorem insertRule_root_inv (ls : List String) (l : String)
    (cs : List (String × Rule)) (t' : Rule)
    (h : insertRule (l :: ls) (Rule.subrule cs) = some t')
    (hnd : (cs.map Prod.fst).Nodup) (hnb : ∀ v, ("!", v) ∉ cs) (hl : l ≠ "!") :
    ∃ cs', t' = Rule.subrule cs' ∧ (cs'.map Prod.fst).Nodup ∧
      ∀ v, ("!", v) ∉ cs' := by
  rw [insertRule] at h
  cases hc : insertRule ls ((dictLookup cs l).getD (Rule.subrule [])) with
  | none => rw [hc] at h; exact absurd h (by simp)
  | some child =>
    rw [hc] at h
    refine ⟨dictSet cs l child, (Option.some_injective _ h).symm,
      dictSet_nodup _ _ _ hnd, ?_⟩
    intro v hv
    rcases dictSet_mem _ _ _ _ _ hv with h1 | ⟨h1, _⟩
    · exact hnb v h1
    · exact hl h1.symm

/-- The root of a trie built from non-empty rules that avoid the terminal
sentinel `"!"` has distinct keys and no `"!"` entry. -/
theorem build_root_inv (pos : List (List String)) (P : Rule)
    (hP : rules_to_tree pos = some P)
    (hr : ∀ r ∈ pos, r ≠ [] ∧ ∀ l ∈ r, l ≠ "!") :
    ∃ cs, P = Rule.subrule cs ∧ (cs.map Prod.fst).Nodup ∧
      ∀ v, ("!", v) ∉ cs := by
  rw [rules_to_tree] at hP
  have gen : ∀ (rs : List (List String)) (cs0 : List (String × Rule)) (t1 : Rule),
      (cs0.map Prod.fst).Nodup → (∀ v, ("!", v) ∉ cs0) →
      (∀ r ∈ rs, r ≠ [] ∧ ∀ l ∈ r, l ≠ "!") →
      rs.foldlM (fun t r => insertRule r.reverse t) (Rule.subrule cs0) = some t1 →
      ∃ cs, t1 = Rule.subrule cs ∧ (cs.map Prod.fst).Nodup ∧
        ∀ v, ("!", v) ∉ cs := by
    intro rs
    induction rs with
    | nil =>
      intro cs0 t1 hnd hnb _ h
      rw [List.foldlM_nil] at h
      exact ⟨cs0, (Option.some_injective _ h).symm, hnd, hnb⟩
    | cons r rest ih =>
      intro cs0 t1 hnd hnb hall h
      rw [List.foldlM_cons] at h
      cases hstep : insertRule r.reverse (Rule.subrule cs0) with
      | none => rw [hstep] at h; exact absurd h (by simp)
      | some t2 =>
        rw [hstep] at h
        obtain ⟨hne, hnl⟩ := hall r (List.mem_cons_self _ _)
        obtain ⟨l, ls, hrev⟩ : ∃ l ls, r.reverse = l :: ls := by
          cases hc : r.reverse with
          | nil => exact absurd (List.reverse_eq_nil_iff.mp hc) hne
          | cons a b => exact ⟨a, b, rfl⟩
        have hl : l ≠ "!" :=
          hnl l (List.mem_reverse.mp (hrev ▸ List.mem_cons_self l ls))
        rw [hrev] at hstep
        obtain ⟨cs2, rfl, hnd2, hnb2⟩ :=
          insertRule_root_inv ls l cs0 t2 hstep hnd hnb hl
        exact ih cs2 t1 hnd2 hnb2 (fun x hx => hall x (List.mem_cons_of_mem _ hx)) h
  exact gen pos [] P (by simp) (by simp) hr hP

/-- The positive part on an empty label list is the `NoMatch` outcome. -/
theorem positivePart_nil (p : Rule) (hroot : anyAccept [p] = false) :
    positivePart [] p = none := by
  simp [positivePart, phase2, hroot]

/-- The positive part on a single label is `nil` whichever way the walk
ends: either the single label is itself a suffix (`IsPublicSuffix`) or the
fallback lacks a second label (`NoMatch`). -/
theorem positivePart_single (l0 : String) (p : Rule) (hroot : anyAccept [p] = false) :
    positivePart [l0] p = none := by
  simp [positivePart, phase2, hroot]

/-- Unfolding the positive part over at least two labels, given that the
root node has no terminal child: two explicit scan steps followed by the
generic continuation, with the fallback specialised to
`labels[1] + "." + labels[0]`. -/
theorem positivePart_expand (l0 l1 : String) (rest : List String) (p : Rule)
    (hroot : anyAccept [p] = false) :
    positivePart (l0 :: l1 :: rest) p
      = (if anyAccept (phase2 (newAccepted (newAccepted [p] l0) l1)
            (if anyAccept (newAccepted [p] l0) = true then [l0, l1] else [])
            [l0, l1] rest).2 = true then none
         else if (phase2 (newAccepted (newAccepted [p] l0) l1)
            (if anyAccept (newAccepted [p] l0) = true then [l0, l1] else [])
            [l0, l1] rest).1 ≠ [] then
           some (joinDot (phase2 (newAccepted (newAccepted [p] l0) l1)
            (if anyAccept (newAccepted [p] l0) = true then [l0, l1] else [])
            [l0, l1] rest).1.reverse)
         else some (l1 ++ "." ++ l0)) := by
  rw [positivePart, phase2, if_neg (by simp [hroot]), phase2]
  rfl

/-- Pruning the positive root does not change the outcome of the positive
phase (including the fallback), for hostnames avoiding the sentinel `"!"`. -/
theorem positivePart_filter (cs : List (String × Rule)) (labels : List String)
    (hnd : (cs.map Prod.fst).Nodup) (hnb : ∀ v, ("!", v) ∉ cs)
    (hlab : ∀ l ∈ labels, l ≠ "!") :
    positivePart labels (filter_top_rules (Rule.subrule cs))
      = positivePart labels (Rule.subrule cs) := by
  have hnb' : ∀ v, ("!", v) ∉ cs.filter (fun kv => !isAcceptThisDict kv.2) :=
    fun v hv => hnb v (List.mem_of_mem_filter hv)
  have hA : anyAccept [Rule.subrule cs] = false := rootAnyAccept cs hnb
  have hA' : anyAccept [filter_top_rules (Rule.subrule cs)] = false := by
    rw [show filter_top_rules (Rule.subrule cs)
      = Rule.subrule (cs.filter (fun kv => !isAcceptThisDict kv.2)) from rfl]
    exact rootAnyAccept _ hnb'
  cases labels with
  | nil => rw [positivePart_nil _ hA', positivePart_nil _ hA]
  | cons l0 t =>
    cases t with
    | nil => rw [positivePart_single _ _ hA', positivePart_single _ _ hA]
    | cons l1 rest =>
      have hl1 : l1 ≠ "!" := hlab l1 (by simp)
      rw [positivePart_expand _ _ _ _ hA', positivePart_expand _ _ _ _ hA]
      rw [newAccepted_root_filter cs l0 hnd]
      rw [newAccepted_filter_eq _ _ hl1]
      obtain ⟨hsnd, hfst⟩ := phase2_longest_or rest
        (newAccepted (newAccepted [Rule.subrule cs] l0) l1) [l0, l1]
        (if anyAccept ((newAccepted [Rule.subrule cs] l0).filter
            (fun r => !isAcceptThisDict r)) = true then [l0, l1] else [])
        (if anyAccept (newAccepted [Rule.subrule cs] l0) = true then [l0, l1] else [])
      rw [hsnd]
      rcases hfst with heq | ⟨hf1, hf2⟩
      · rw [heq]
      · by_cases hacc : anyAccept (phase2
            (newAccepted (newAccepted [Rule.subrule cs] l0) l1)
            (if anyAccept (newAccepted [Rule.subrule cs] l0) = true
              then [l0, l1] else [])
            [l0, l1] rest).2 = true
        · rw [if_pos hacc, if_pos hacc]
        · rw [if_neg hacc, if_neg hacc]
          rw [hf1, hf2]
          by_cases hb' : anyAccept ((newAccepted [Rule.subrule cs] l0).filter
              (fun r => !isAcceptThisDict r)) = true
          · have hb : anyAccept (newAccepted [Rule.subrule cs] l0) = true :=
              anyAccept_of_filter _ _ hb'
            rw [if_pos hb, if_pos hb']
          · by_cases hb : anyAccept (newAccepted [Rule.subrule cs] l0) = true
            · rw [if_pos hb, if_neg hb']
              rw [if_neg (fun hc => hc rfl)]
              rw [if_pos (by simp)]
              rfl
            · rw [if_neg hb, if_neg hb']

/-- C5: pruning the top-level single-label-only entries of the positive trie
(as `filter_top_rules` does) never changes the resolver's output, for every
rule set of non-empty rules avoiding the terminal sentinel label and every
hostname avoiding it (the spec's data model reserves that sentinel). -/
theorem c5_pruning_equivalence (pos : List (List String)) (P N : Rule)
    (host : List String)
    (hP : rules_to_tree pos = some P)
    (hr : ∀ r ∈ pos, r ≠ [] ∧ ∀ l ∈ r, l ≠ "!")
    (hh : ∀ l ∈ host, l ≠ "!") :
    get_domain host N (filter_top_rules P) = get_domain host N P := by
  obtain ⟨cs, rfl, hnd, hnb⟩ := build_root_inv pos P hP hr
  simp only [get_domain]
  cases hp1 : phase1 [N] [] [] host.reverse with
  | none => rfl
  | some L =>
    dsimp only
    by_cases hL : L ≠ []
    · rw [if_pos hL, if_pos hL]
    · rw [if_neg hL, if_neg hL]
      exact positivePart_filter cs host.reverse hnd hnb
        (fun l hl => hh l (List.mem_reverse.mp hl))

/-- Witness for `c5_pruning_equivalence`: the rule set `{co.uk}` and the
hostname `x.co.uk`. -/
theorem c5_pruning_equivalence_witness :
    rules_to_tree [["co", "uk"]] = some (chainTree ["uk", "co"]) ∧
    get_domain ["x", "co", "uk"] (Rule.subrule [])
        (filter_top_rules (chainTree ["uk", "co"]))
      = get_domain ["x", "co", "uk"] (Rule.subrule []) (chainTree ["uk", "co"]) :=
  ⟨rfl,
   c5_pruning_equivalence [["co", "uk"]] (chainTree ["uk", "co"]) (Rule.subrule [])
     ["x", "co", "uk"] rfl (by decide) (by decide)⟩

end SwiftPSL
